import Mathlib

/-!
Verification of `parsers/check_github_repos.py` (repostatus.org GitHub checker).

The Python script is a sequential pipeline: list a user's repositories,
select candidate files in each repository root, fetch each candidate's
content, search it for a repostatus.org badge URL with a regular
expression, aggregate the results into a name-to-status mapping, and
render that mapping as text, JSON or HTML.

This file gives a shallow embedding of that pipeline.  External I/O
(the GitHub API, file fetching, base64 transport) is modelled by pure
data: a repository carries its root listing and a function from file
path to fetched content, where `FileContent.text` stands for the
base64-decoded UTF-8 text of the stored payload.  Python strings are
modelled as Lean `String`/`List Char` (sequences of Unicode scalar
values); Python string comparison is code-point lexicographic, modelled
by `charListLt` below.  `Char.toLower` models `str.lower` on the ASCII
range, which is the range the script's literals and GitHub file names
exercise.
-/

namespace RepoStatus

/-- Case-insensitive character equality, modelling `re.I` matching of the
ASCII literals appearing in the script's patterns. -/
def ciEq (a b : Char) : Bool :=
  a.toLower == b.toLower

/-- Strip a literal (matched case-insensitively) from the front of the input,
returning the remainder, or `none` when the input does not start with the
literal. -/
def stripCI : List Char → List Char → Option (List Char)
  | [], s => some s
  | _ :: _, [] => none
  | p :: ps, c :: cs => if ciEq p c then stripCI ps cs else none

/-- Python's `.` in a pattern compiled without `re.DOTALL`: any character
except a newline. -/
def nnl (c : Char) : Bool :=
  c != '\n'

/-!
Model of `url_re.search`, for the compiled pattern

  `http[s]?:\/\/.*repostatus\.org\/badges\/(.+)\/(.+)\.svg`  (flags `re.I`)

as used in `_find_status_for_files`.  Python's `re.search` returns the
match at the leftmost starting position; at that position quantifiers are
greedy with backtracking.  The functions below implement exactly that
strategy: `g2try`/`g1try` scan candidate group lengths from longest to
shortest, `dsTry` scans the `.*` length from longest to shortest, and
`urlSearch` tries starting positions left to right.
-/

/-- The literal tail `.svg` of the pattern (the dot is escaped in the
pattern, so it is a literal). -/
def svgLit : List Char :=
  ['.', 's', 'v', 'g']

/-- The literal `repostatus.org/badges/` of the pattern. -/
def badgesLit : List Char :=
  ['r', 'e', 'p', 'o', 's', 't', 'a', 't', 'u', 's', '.', 'o', 'r', 'g', '/', 'b', 'a', 'd', 'g', 'e', 's', '/']

/-- The literal `https://` (the `[s]?` branch taken). -/
def httpsLit : List Char :=
  ['h', 't', 't', 'p', 's', ':', '/', '/']

/-- The literal `http://` (the `[s]?` branch not taken). -/
def httpLit : List Char :=
  ['h', 't', 't', 'p', ':', '/', '/']

/-- Greedy match of `(.+)\.svg` against `u`: the second capture group is the
longest non-empty newline-free prefix of `u` followed by the literal `.svg`
(case-insensitively).  `g2try u k` tries group lengths `k, k-1, ..., 1`. -/
def g2try (u : List Char) : Nat → Option (List Char)
  | 0 => none
  | k + 1 =>
    if (u.take (k + 1)).all nnl then
      match stripCI svgLit (u.drop (k + 1)) with
      | some _ => some (u.take (k + 1))
      | none => g2try u k
    else g2try u k

/-- Greedy match of `(.+)\.svg` with the longest group attempted first. -/
def g2full (u : List Char) : Option (List Char) :=
  g2try u u.length

/-- Greedy match of `(.+)\/(.+)\.svg` against `t`: the first capture group is
as long as possible (newline-free, followed by a literal `/`) such that the
rest of the pattern still matches.  `g1try t j` tries first-group lengths
`j, j-1, ..., 1`. -/
def g1try (t : List Char) : Nat → Option (List Char × List Char)
  | 0 => none
  | j + 1 =>
    if (t.take (j + 1)).all nnl then
      match t.drop (j + 1) with
      | [] => g1try t j
      | c :: rest =>
        if c = '/' then
          match g2full rest with
          | some v2 => some (t.take (j + 1), v2)
          | none => g1try t j
        else g1try t j
    else g1try t j

/-- Greedy match of `(.+)\/(.+)\.svg` with the longest first group attempted
first. -/
def g1full (t : List Char) : Option (List Char × List Char) :=
  g1try t t.length

/-- Attempt the `.*repostatus\.org\/badges\/(.+)\/(.+)\.svg` part with the
`.*` consuming exactly `i` characters of `s`. -/
def dsAt (s : List Char) (i : Nat) : Option (List Char × List Char) :=
  if (s.take i).all nnl then
    match stripCI badgesLit (s.drop i) with
    | some t => g1full t
    | none => none
  else none

/-- Greedy `.*`: try the `.*` lengths `n, n-1, ..., 0`, longest first. -/
def dsTry (s : List Char) : Nat → Option (List Char × List Char)
  | 0 => dsAt s 0
  | i + 1 =>
    match dsAt s (i + 1) with
    | some p => some p
    | none => dsTry s i

/-- Match `.*repostatus\.org\/badges\/(.+)\/(.+)\.svg` at the start of `s`,
with greedy `.*`. -/
def dsFull (s : List Char) : Option (List Char × List Char) :=
  dsTry s s.length

/-- Match the whole pattern anchored at the start of `s`.  The greedy `[s]?`
tries the `https://` branch first; when the input starts with `https://`
(case-insensitively) the `http://` branch cannot also apply, so the two
branches are tried in order. -/
def matchAt (s : List Char) : Option (List Char × List Char) :=
  match stripCI httpsLit s with
  | some r => dsFull r
  | none =>
    match stripCI httpLit s with
    | some r => dsFull r
    | none => none

/-- Model of `url_re.search`: try each starting position from the left; at
the first position admitting a match, return the two capture groups
`(version, status)` of the greedy match there. -/
def urlSearch : List Char → Option (List Char × List Char)
  | [] => none
  | c :: cs =>
    match matchAt (c :: cs) with
    | some p => some p
    | none => urlSearch cs

/-- String version of `url_re.search`, returning the groups as strings. -/
def urlSearchStr (s : String) : Option (String × String) :=
  match urlSearch s.data with
  | some p => some (String.mk p.1, String.mk p.2)
  | none => none

/-!
Model of `readme_re.match`, for the compiled pattern `^readme.*$` with
`re.I`.  `re.match` anchors at the start; `.*` cannot cross a newline, and
`$` matches at the end of the string or just before a trailing newline.
Hence the name matches exactly when it starts with `readme`
(case-insensitively) and the remainder contains no newline, except possibly
a single trailing one.
-/

/-- Whether the trailing part after `readme` is accepted by `.*$`: it may
contain no newline, except as its final character. -/
def restOk : List Char → Bool
  | [] => true
  | [_] => true
  | c :: rest => nnl c && restOk rest

/-- Model of `readme_re.match fname` as a Boolean. -/
def readmeMatch (fname : String) : Bool :=
  match stripCI (['r', 'e', 'a', 'd', 'm', 'e']) fname.data with
  | some rest => restOk rest
  | none => false

/-!
Python's `sorted(files, key=lambda x: x.lower())`: a stable sort, ascending
by the code-point order of the lowercased name.  We model the comparison on
`List Char` directly (Lean's built-in `String` order does not reduce well
in the kernel), and implement the stable sort as left-to-right insertion
where a new element is placed after all elements whose key is not greater.
-/

/-- Code-point lexicographic order on character lists, as Python compares
strings. -/
def charListLt : List Char → List Char → Bool
  | [], [] => false
  | [], _ :: _ => true
  | _ :: _, [] => false
  | a :: as, b :: bs =>
    if a < b then true
    else if b < a then false
    else charListLt as bs

/-- Python string comparison `a < b`. -/
def strLt (a b : String) : Bool :=
  charListLt a.data b.data

/-- Model of Python `str.lower` (ASCII range). -/
def pyLower (s : String) : String :=
  String.mk (s.data.map Char.toLower)

/-- Insert `a` into an already key-sorted accumulator, after every element
whose key is not greater than the key of `a`; this is the insertion step of
a stable sort by `key`. -/
def insK (key : String → String) (a : String) : List String → List String
  | [] => [a]
  | b :: bs => if strLt (key a) (key b) then a :: b :: bs else b :: insK key a bs

/-- Stable sort (ascending by `key`, ties in original order), modelling
Python's `sorted(l, key=key)`. -/
def sortK (key : String → String) (l : List String) : List String :=
  l.foldl (fun acc a => insK key a acc) []

/-- Model of `sorted(files, key=lambda x: x.lower())`. -/
def sortByLower (l : List String) : List String :=
  sortK pyLower l

/-- Model of `sorted(keys)` (Python default string order). -/
def pySorted (l : List String) : List String :=
  sortK (fun s => s) l

/-- Non-strict code-point order on strings, as a proposition. -/
def strLe (a b : String) : Prop :=
  strLt b a = false

/-- One entry of a repository root listing, as returned by
`repo.get_contents('/')`: a name and a type tag (`file`, `dir`, ...). -/
structure RootEntry where
  name : String
  type : String

/-- Model of `_find_candidate_files`: keep the names of the plain files,
sort all of them by lowercased name, keep those matching `readme_re`, then
append `.repostatus.org` and `repostatus.org` when present among the plain
files. -/
def find_candidate_files (entries : List RootEntry) : List String :=
  let files := (entries.filter (fun x => x.type == "file")).map (fun x => x.name)
  let candidates := (sortByLower files).filter readmeMatch
  candidates
    ++ (if files.contains (".repostatus.org") then [".repostatus.org"] else [])
    ++ (if files.contains ("repostatus.org") then ["repostatus.org"] else [])

/-- Plain-file names of a root listing, in listing order. -/
def plainFiles (entries : List RootEntry) : List String :=
  (entries.filter (fun x => x.type == "file")).map (fun x => x.name)

/-- Candidate selection as the specification describes it, with the readme
test taken as the faithful `readme_re` semantics: filter the plain files by
the readme test, sort that subset (stable, ascending by lowercased name),
then append the two fixed names when present. -/
def candidate_files_spec (entries : List RootEntry) : List String :=
  sortByLower ((plainFiles entries).filter readmeMatch)
    ++ (if (plainFiles entries).contains (".repostatus.org") then [".repostatus.org"] else [])
    ++ (if (plainFiles entries).contains ("repostatus.org") then ["repostatus.org"] else [])

/-- Whether a name starts with `readme` case-insensitively, with no further
condition: the literal reading of the claim's selection rule. -/
def readmeLiteral (fname : String) : Bool :=
  (stripCI (['r', 'e', 'a', 'd', 'm', 'e']) fname.data).isSome

/-- Candidate selection as the claim literally states it: every plain file
whose name starts with `readme` case-insensitively, sorted by lowercased
name, then the two fixed names when present. -/
def candidate_files_claim (entries : List RootEntry) : List String :=
  sortByLower ((plainFiles entries).filter readmeLiteral)
    ++ (if (plainFiles entries).contains (".repostatus.org") then [".repostatus.org"] else [])
    ++ (if (plainFiles entries).contains ("repostatus.org") then ["repostatus.org"] else [])

/-- Fetched file content, as delivered by `repo.get_contents(path)`: the
reported transfer encoding, and the text the script would obtain by
`b64decode(...).decode()` when that encoding is `base64`. -/
structure FileContent where
  encoding : String
  text : String

/-- The text the script searches for a given candidate file: the decoded
text when the content's encoding is `base64`, and the empty string (after
logging an error) otherwise. -/
def fileText (g : String → FileContent) (f : String) : String :=
  if (g f).encoding == "base64" then (g f).text else ""

/-- Model of `_find_status_for_files`: walk the candidate list in order and
return the two regex groups of the first file whose search text matches
`url_re`; `none` when no candidate matches. -/
def find_status_for_files (g : String → FileContent) : List String → Option (String × String)
  | [] => none
  | f :: fs =>
    match urlSearchStr (fileText g f) with
    | some p => some p
    | none => find_status_for_files g fs

/-- The error line logged for a file whose content encoding is not
`base64` (`logger.error("unknown encoding ...")`). -/
def encodingErr (repoName f enc : String) : String :=
  "unknown encoding \x27" ++ enc ++ "\x27 on file " ++ f ++ " in repository " ++ repoName

/-- Model of `_find_status_for_files` together with the error log lines it
emits: for each visited file whose encoding is not `base64`, an error entry
is recorded, the search text is taken to be empty (so the file cannot
match), and the walk continues.  The first component agrees with
`find_status_for_files`. -/
def find_status_logged (repoName : String) (g : String → FileContent) :
    List String → Option (String × String) × List String
  | [] => (none, [])
  | f :: fs =>
    let logs := if (g f).encoding == "base64" then [] else [encodingErr repoName f (g f).encoding]
    match urlSearchStr (fileText g f) with
    | some p => (some p, logs)
    | none =>
      let r := find_status_logged repoName g fs
      (r.1, logs ++ r.2)

/-- A repository as the checker sees it: its name, its fork flag, its root
listing (`get_contents('/')`) and its content fetcher (`get_contents(f)`). -/
structure Repo where
  name : String
  fork : Bool
  entries : List RootEntry
  getContents : String → FileContent

/-- Python dict assignment `d[k] = v`: replace the value in place when the
key is present, append otherwise (insertion order preserved). -/
def dictSet (d : List (String × Option (String × String))) (k : String)
    (v : Option (String × String)) : List (String × Option (String × String)) :=
  if (d.map Prod.fst).contains k then
    d.map (fun p => if p.1 == k then (k, v) else p)
  else d ++ [(k, v)]

/-- Model of `check`: walk the repositories in listing order; skip forks
unless forks are included; skip repositories whose candidate list is empty;
otherwise store the repository name mapped to the resolver's result (which
is `none` when no candidate matched).  The debug log lines and the
fork/processed counters do not affect the result and are not modelled. -/
def check (repos : List Repo) (includeForks : Bool) : List (String × Option (String × String)) :=
  repos.foldl
    (fun res repo =>
      if repo.fork && !includeForks then res
      else
        let candidates := find_candidate_files repo.entries
        if candidates.isEmpty then res
        else dictSet res repo.name (find_status_for_files repo.getContents candidates))
    []

/-- Whether `check` records an entry for a repository: it is not an
excluded fork and its candidate list is non-empty. -/
def keepRepo (includeForks : Bool) (r : Repo) : Bool :=
  !(r.fork && !includeForks) && !(find_candidate_files r.entries).isEmpty

/-!
The `__main__` block: build the printable mapping (`output`), compute the
longest name, render per the chosen format, and exit.
-/

/-- The string printed for one resolver result: the status (second group)
of a match, or the sentinel `UNKNOWN`. -/
def statusToken : Option (String × String) → String
  | none => "UNKNOWN"
  | some p => p.2

/-- The `output` dict of `__main__`: repository name mapped to its status
token. -/
def buildOutput (results : List (String × Option (String × String))) : List (String × String) :=
  results.map (fun p => (p.1, statusToken p.2))

/-- The `maxlen` accumulator of `__main__`: the longest repository name
length in the results. -/
def maxlenOf (results : List (String × Option (String × String))) : Nat :=
  results.foldl (fun m p => if p.1.length > m then p.1.length else m) 0

/-- Python `"{:<w}".format(s)`: left-justify, padding on the right with
spaces up to width `w` (no-op when the string is at least that long). -/
def pyFormatLeft (s : String) (w : Nat) : String :=
  s ++ String.mk (List.replicate (w - s.length) ' ')

/-- Name left-padded (spaces added on the left) to width `w`: the literal
reading of the claim's rendering rule. -/
def padLeftTo (s : String) (w : Nat) : String :=
  String.mk (List.replicate (w - s.length) ' ') ++ s

/-- Python dict lookup `d[k]` on an association list (first hit), with a
default for absent keys. -/
def lookupD (d : List (String × String)) (k : String) (dflt : String) : String :=
  match d with
  | [] => dflt
  | p :: rest => if p.1 == k then p.2 else lookupD rest k dflt

/-- Model of the `text` output branch: `'{:<%d}   {}' % (maxlen + 1)`
applied to each repository in sorted key order. -/
def textLines (results : List (String × Option (String × String))) : List String :=
  (pySorted ((buildOutput results).map Prod.fst)).map
    (fun k => pyFormatLeft k (maxlenOf results + 1) ++ "   " ++ lookupD (buildOutput results) k "")

/-- The text output as the claim literally states it: each name left-padded
to the width of the longest name, immediately followed by the status
token. -/
def claimTextLines (results : List (String × Option (String × String))) : List String :=
  (pySorted ((buildOutput results).map Prod.fst)).map
    (fun k => padLeftTo k (maxlenOf results) ++ lookupD (buildOutput results) k "")

/-- One table row of the HTML output (`htmlout`), for a repository and its
status token. -/
def htmlRow (username repo status : String) : String :=
  "        <tr><td><a href=\"" ++ "https://github.com/" ++ username ++ "/" ++ repo
    ++ "\">" ++ repo ++ "</a></td><td>" ++ status ++ "</td></tr>\n"

/-- Model of the `tbody` accumulation loop of `htmlout`: one row per
repository, in sorted key order.  The surrounding static HTML template and
the generation timestamp do not affect row order and are not modelled. -/
def htmlTbody (username : String) (results : List (String × Option (String × String))) : String :=
  String.join ((pySorted ((buildOutput results).map Prod.fst)).map
    (fun k => htmlRow username k (lookupD (buildOutput results) k "")))

/-!
Model of `json.dumps(output)` for a flat `str -> str` dict (default
arguments: `ensure_ascii=True`, separators `", "` and `": "`), and of
`json.loads` on such flat-object documents.  A Python `str` is a sequence
of code points; Lean's `Char` excludes lone surrogates, which `json.dumps`
can only produce from strings that already contain lone surrogates, so the
model covers exactly the well-formed strings.
-/

/-- Lowercase hex digit for a value below 16, as `%x` formatting emits. -/
def hexDigitChar (n : Nat) : Char :=
  Char.ofNat (if n < 10 then 48 + n else 87 + n)

/-- Four lowercase hex digits for a value below 65536 (`%04x`). -/
def hex4 (n : Nat) : List Char :=
  [hexDigitChar (n / 4096 % 16), hexDigitChar (n / 256 % 16),
   hexDigitChar (n / 16 % 16), hexDigitChar (n % 16)]

/-- How `json.dumps` (with `ensure_ascii=True`) renders one character: the
two-character shorthands for quote, backslash and the five control
shorthands; printable ASCII unchanged; everything else as `\uXXXX`, using a
surrogate pair for code points beyond the basic plane. -/
def escapeChar (c : Char) : List Char :=
  if c = '"' then ['\\', '"']
  else if c = '\\' then ['\\', '\\']
  else if c = '\x08' then ['\\', 'b']
  else if c = '\t' then ['\\', 't']
  else if c = '\n' then ['\\', 'n']
  else if c = '\x0c' then ['\\', 'f']
  else if c = '\x0d' then ['\\', 'r']
  else if 32 ≤ c.toNat ∧ c.toNat ≤ 126 then [c]
  else if c.toNat < 65536 then '\\' :: 'u' :: hex4 c.toNat
  else ('\\' :: 'u' :: hex4 (55296 + (c.toNat - 65536) / 1024))
    ++ ('\\' :: 'u' :: hex4 (56320 + (c.toNat - 65536) % 1024))

/-- Escape every character of a string body. -/
def escList (cs : List Char) : List Char :=
  (cs.map escapeChar).flatten

/-- A JSON string literal: quote, escaped body, quote. -/
def escapeString (s : String) : List Char :=
  '"' :: escList s.data ++ ['"']

/-- Join pre-rendered members with the default `", "` separator. -/
def joinComma : List (List Char) → List Char
  | [] => []
  | [x] => x
  | x :: y :: r => x ++ ',' :: ' ' :: joinComma (y :: r)

/-- The rendered members of a flat string dict, `"key": "value"` each. -/
def membersChars (d : List (String × String)) : List Char :=
  joinComma (d.map (fun p => escapeString p.1 ++ ':' :: ' ' :: escapeString p.2))

/-- Model of `json.dumps` on a flat string dict. -/
def jsonDumps (d : List (String × String)) : List Char :=
  '\x7b' :: membersChars d ++ ['\x7d']

/-- Value of one hex digit (JSON accepts both cases). -/
def hexVal (c : Char) : Option Nat :=
  if 48 ≤ c.toNat ∧ c.toNat ≤ 57 then some (c.toNat - 48)
  else if 97 ≤ c.toNat ∧ c.toNat ≤ 102 then some (c.toNat - 87)
  else if 65 ≤ c.toNat ∧ c.toNat ≤ 70 then some (c.toNat - 55)
  else none

/-- Read four hex digits from the input. -/
def readHex4 : List Char → Option (Nat × List Char)
  | a :: b :: c :: d :: rest =>
    match hexVal a, hexVal b, hexVal c, hexVal d with
    | some x, some y, some z, some w => some (4096 * x + 256 * y + 16 * z + w, rest)
    | _, _, _, _ => none
  | _ => none

/-- Skip JSON whitespace. -/
def skipWs : List Char → List Char
  | [] => []
  | c :: rest =>
    if c = ' ' || c = '\t' || c = '\n' || c = '\x0d' then skipWs rest else c :: rest

/-- Parse the body of a JSON string literal (after the opening quote),
decoding escapes; surrogate pairs are recombined as `json.loads` does.
The fuel argument bounds the number of decoded characters; each step
consumes at least one input character. -/
def parseStrBody : Nat → List Char → List Char → Option (String × List Char)
  | 0, _, _ => none
  | fuel + 1, acc, l =>
    match l with
    | [] => none
    | c :: rest =>
      if c = '"' then some (String.mk acc.reverse, rest)
      else if c = '\\' then
        match rest with
        | [] => none
        | e :: rest2 =>
          if e = '"' then parseStrBody fuel ('"' :: acc) rest2
          else if e = '\\' then parseStrBody fuel ('\\' :: acc) rest2
          else if e = '/' then parseStrBody fuel ('/' :: acc) rest2
          else if e = 'b' then parseStrBody fuel ('\x08' :: acc) rest2
          else if e = 't' then parseStrBody fuel ('\t' :: acc) rest2
          else if e = 'n' then parseStrBody fuel ('\n' :: acc) rest2
          else if e = 'f' then parseStrBody fuel ('\x0c' :: acc) rest2
          else if e = 'r' then parseStrBody fuel ('\x0d' :: acc) rest2
          else if e = 'u' then
            match readHex4 rest2 with
            | none => none
            | some (h, rest3) =>
              if 55296 ≤ h ∧ h ≤ 56319 then
                match rest3 with
                | '\\' :: 'u' :: rest4 =>
                  match readHex4 rest4 with
                  | none => none
                  | some (lo, rest5) =>
                    if 56320 ≤ lo ∧ lo ≤ 57343 then
                      parseStrBody fuel
                        (Char.ofNat (65536 + (h - 55296) * 1024 + (lo - 56320)) :: acc) rest5
                    else none
                | _ => none
              else if 56320 ≤ h ∧ h ≤ 57343 then none
              else parseStrBody fuel (Char.ofNat h :: acc) rest3
          else none
      else if c.toNat < 32 then none
      else parseStrBody fuel (c :: acc) rest

/-- Parse a JSON string literal. -/
def parseString (l : List Char) : Option (String × List Char) :=
  match l with
  | '"' :: rest => parseStrBody (rest.length + 1) [] rest
  | _ => none

/-- Parse the non-empty member list of a flat JSON object: `"k": "v"`
pairs separated by commas, stopping before the closing brace (left in the
remainder).  The fuel bounds the number of members. -/
def parseMembers : Nat → List Char → Option (List (String × String) × List Char)
  | 0, _ => none
  | fuel + 1, l =>
    match parseString l with
    | none => none
    | some (k, r1) =>
      match skipWs r1 with
      | ':' :: r2 =>
        match parseString (skipWs r2) with
        | none => none
        | some (v, r3) =>
          match skipWs r3 with
          | ',' :: r4 =>
            match parseMembers fuel (skipWs r4) with
            | some (d, r5) => some ((k, v) :: d, r5)
            | none => none
          | r4 => some ([(k, v)], r4)
      | _ => none

/-- Model of `json.loads` on a document that is a single flat object with
string values, returning the key/value pairs in document order. -/
def jsonLoads (l : List Char) : Option (List (String × String)) :=
  match skipWs l with
  | '\x7b' :: r =>
    match skipWs r with
    | '\x7d' :: r2 => if skipWs r2 = [] then some [] else none
    | r2 =>
      match parseMembers (l.length + 1) r2 with
      | some (d, r3) =>
        match skipWs r3 with
        | '\x7d' :: r4 => if skipWs r4 = [] then some d else none
        | _ => none
      | none => none
  | _ => none

/-!
Exit behaviour of the script as a whole: the `__init__` token check and
the tail of `__main__`.  The observable effects relevant to the exit-code
claim are abstracted as an event trace.
-/

/-- Coarse observable events of a run, in order: the fatal token error
log, the GitHub API traffic performed by `check`, the printed rendering,
the summary log line, and the unknown-repository log line. -/
inductive MEvent where
  | tokenError : MEvent
  | apiCheck : MEvent
  | printOut : MEvent
  | summaryLog : MEvent
  | unknownLog : MEvent
deriving DecidableEq

/-- Model of a whole run: `__init__` raises `SystemExit(1)` before any API
call when the `github.token` git config value is missing; otherwise the
repositories are checked, the output is printed (any format), the summary
is logged, and the run exits 1 exactly when `--fail-on-unknown` was given
and some repository has unknown status, else 0. -/
def mainRun (tokenPresent : Bool) (repos : List Repo) (includeForks failOnUnknown : Bool) :
    List MEvent × Nat :=
  if tokenPresent = false then ([MEvent.tokenError], 1)
  else
    let results := check repos includeForks
    let unknown := (results.filter (fun p => p.2.isNone)).map Prod.fst
    let evs := [MEvent.apiCheck, MEvent.printOut, MEvent.summaryLog]
      ++ (if unknown.isEmpty then [] else [MEvent.unknownLog])
    if !unknown.isEmpty && failOnUnknown then (evs, 1) else (evs, 0)

/-!
Order facts for the code-point comparison, and the stable-sort lemmas.
-/

/-- Strict list order is asymmetric. -/
theorem clt_asymm : ∀ a b : List Char, charListLt a b = true → charListLt b a = false
  | [], [], h => by simp [charListLt] at h
  | [], _ :: _, _ => by simp [charListLt]
  | _ :: _, [], h => by simp [charListLt] at h
  | a :: as, b :: bs, h => by
    simp only [charListLt] at h ⊢
    by_cases hab : a < b
    · simp [hab, asymm hab, lt_asymm hab]
    · by_cases hba : b < a
      · simp [hab, hba] at h
      · simp only [hab, if_false, hba] at h ⊢
        simp [clt_asymm as bs h]

/-- Two lists neither of which is below the other are equal. -/
theorem clt_conn : ∀ a b : List Char, charListLt a b = false → charListLt b a = false → a = b
  | [], [], _, _ => rfl
  | [], _ :: _, h, _ => by simp [charListLt] at h
  | _ :: _, [], _, h2 => by simp [charListLt] at h2
  | a :: as, b :: bs, h, h2 => by
    simp only [charListLt] at h h2
    by_cases hab : a < b
    · simp [hab] at h
    · by_cases hba : b < a
      · simp [hba, hab] at h2
      · simp only [hab, hba, if_false] at h h2
        have : a = b := le_antisymm (not_lt.mp hba) (not_lt.mp hab)
        rw [this, clt_conn as bs h h2]

/-- The non-strict order (stated as a negated strict comparison) is
transitive. -/
theorem cle_trans : ∀ a b c : List Char,
    charListLt b a = false → charListLt c b = false → charListLt c a = false
  | [], _, [], _, _ => rfl
  | [], _, _ :: _, _, _ => rfl
  | _ :: _, [], _, h1, _ => by simp [charListLt] at h1
  | _ :: _, _ :: _, [], _, h2 => by simp [charListLt] at h2
  | a :: as, b :: bs, c :: cs, h1, h2 => by
    simp only [charListLt] at h1 h2 ⊢
    by_cases hba : b < a
    · simp [hba] at h1
    · by_cases hcb : c < b
      · simp [hcb] at h2
      · have hab : a ≤ b := not_lt.mp hba
        have hbc : b ≤ c := not_lt.mp hcb
        have hca : ¬ c < a := not_lt.mpr (le_trans hab hbc)
        rw [if_neg hba] at h1
        rw [if_neg hcb] at h2
        rw [if_neg hca]
        by_cases hac : a < c
        · simp [hac]
        · have heac : a = c := le_antisymm (le_trans hab hbc) (not_lt.mp hac)
          subst heac
          have heab : a = b := le_antisymm hab hbc
          subst heab
          rw [if_neg hac]
          rw [if_neg (lt_irrefl a)] at h1 h2
          exact cle_trans as bs cs h1 h2

/-- Strict below non-strict is strict. -/
theorem clt_of_clt_of_cle (a b x : List Char) (h1 : charListLt a b = true)
    (h2 : charListLt x b = false) : charListLt a x = true := by
  cases hax : charListLt a x with
  | true => rfl
  | false =>
    have h3 := cle_trans b x a h2 hax
    rw [h1] at h3
    exact absurd h3 (by simp)

/-- String versions of the order facts. -/
theorem sLt_asymm (a b : String) (h : strLt a b = true) : strLt b a = false :=
  clt_asymm a.data b.data h

/-- Antisymmetry of the string order. -/
theorem sLe_antisymm (a b : String) (h : strLt a b = false) (h2 : strLt b a = false) : a = b := by
  cases a with
  | mk da =>
    cases b with
    | mk db =>
      exact congrArg String.mk (clt_conn da db h h2)

/-- Transitivity of the non-strict string order. -/
theorem sLe_trans (a b c : String) (h1 : strLt b a = false) (h2 : strLt c b = false) :
    strLt c a = false :=
  cle_trans a.data b.data c.data h1 h2

/-- Strict below non-strict is strict, for strings. -/
theorem sLt_of_sLt_of_sLe (a b x : String) (h1 : strLt a b = true) (h2 : strLt x b = false) :
    strLt a x = true :=
  clt_of_clt_of_cle a.data b.data x.data h1 h2

/-- The order in which a sorted accumulator is kept: each element not
greater (by key) than every later one. -/
def keyLe (key : String → String) (a b : String) : Prop :=
  strLt (key b) (key a) = false

/-- Inserting is a permutation. -/
theorem insK_perm (key : String → String) (a : String) :
    ∀ l : List String, (insK key a l).Perm (a :: l)
  | [] => List.Perm.refl _
  | b :: bs => by
    simp only [insK]
    split
    · exact List.Perm.refl _
    · exact ((insK_perm key a bs).cons b).trans (List.Perm.swap a b bs)

/-- Membership after insertion. -/
theorem mem_insK (key : String → String) (a x : String) (l : List String) :
    x ∈ insK key a l ↔ x = a ∨ x ∈ l := by
  rw [(insK_perm key a l).mem_iff]
  simp

/-- The stable sort is a permutation of its input. -/
theorem sortK_perm_aux (key : String → String) :
    ∀ (l acc : List String),
      (List.foldl (fun acc a => insK key a acc) acc l).Perm (acc ++ l)
  | [], acc => by simp
  | a :: l, acc => by
    simp only [List.foldl_cons]
    refine (sortK_perm_aux key l (insK key a acc)).trans ?_
    have h1 : (insK key a acc ++ l).Perm ((a :: acc) ++ l) :=
      (insK_perm key a acc).append_right l
    refine h1.trans ?_
    simpa using List.perm_middle.symm

/-- Model of Python's `sorted`: the result is a permutation of the input. -/
theorem sortK_perm (key : String → String) (l : List String) : (sortK key l).Perm l := by
  simpa using sortK_perm_aux key l []

/-- Insertion preserves sortedness. -/
theorem insK_sorted (key : String → String) (a : String) :
    ∀ l : List String, l.Pairwise (keyLe key) → (insK key a l).Pairwise (keyLe key)
  | [], _ => by simp [insK, List.pairwise_cons]
  | b :: bs, h => by
    rw [List.pairwise_cons] at h
    obtain ⟨hb, hbs⟩ := h
    simp only [insK]
    split
    · rename_i hab
      rw [List.pairwise_cons]
      refine ⟨?_, List.pairwise_cons.mpr ⟨hb, hbs⟩⟩
      intro x hx
      rcases List.mem_cons.mp hx with hxb | hxbs
      · subst hxb
        exact sLt_asymm _ _ hab
      · exact sLt_asymm _ _ (sLt_of_sLt_of_sLe _ _ _ hab (hb x hxbs))
    · rename_i hab
      rw [List.pairwise_cons]
      refine ⟨?_, insK_sorted key a bs hbs⟩
      intro x hx
      rcases (mem_insK key a x bs).mp hx with hxa | hxbs
      · subst hxa
        simpa using hab
      · exact hb x hxbs

/-- The stable sort produces a key-sorted list. -/
theorem sortK_sorted_aux (key : String → String) :
    ∀ (l acc : List String), acc.Pairwise (keyLe key) →
      (List.foldl (fun acc a => insK key a acc) acc l).Pairwise (keyLe key)
  | [], _, h => h
  | a :: l, acc, h => by
    simp only [List.foldl_cons]
    exact sortK_sorted_aux key l (insK key a acc) (insK_sorted key a acc h)

/-- Model of Python's `sorted`: the result is sorted by key. -/
theorem sortK_sorted (key : String → String) (l : List String) :
    (sortK key l).Pairwise (keyLe key) :=
  sortK_sorted_aux key l [] (List.Pairwise.nil)

/-- Inserting an element whose key is strictly below every element's key
puts it in front. -/
theorem insK_eq_cons (key : String → String) (a : String) :
    ∀ m : List String, (∀ x ∈ m, strLt (key a) (key x) = true) → insK key a m = a :: m
  | [], _ => rfl
  | c :: cs, h => by
    simp only [insK, h c (List.mem_cons_self c cs), if_true]

/-- Filtering commutes with inserting into a sorted accumulator. -/
theorem filter_insK (key : String → String) (p : String → Bool) (a : String) :
    ∀ l : List String, l.Pairwise (keyLe key) →
      (insK key a l).filter p = if p a then insK key a (l.filter p) else l.filter p
  | [], _ => by
    simp only [insK, List.filter]
    cases p a <;> simp [insK]
  | b :: bs, h => by
    rw [List.pairwise_cons] at h
    obtain ⟨hb, hbs⟩ := h
    simp only [insK]
    split
    · rename_i hab
      have hall : ∀ x ∈ (b :: bs).filter p, strLt (key a) (key x) = true := by
        intro x hx
        rcases List.mem_cons.mp (List.mem_of_mem_filter hx) with hxb | hxbs
        · subst hxb
          exact hab
        · exact sLt_of_sLt_of_sLe _ _ _ hab (hb x hxbs)
      cases hpa : p a with
      | true =>
        rw [if_pos rfl, insK_eq_cons key a _ hall]
        simp [List.filter, hpa]
      | false =>
        simp [List.filter, hpa]
    · rename_i hab
      have ih := filter_insK key p a bs hbs
      cases hpa : p a with
      | true =>
        cases hpb : p b with
        | true =>
          simp only [List.filter_cons, hpb, if_pos rfl, ih, hpa]
          simp [insK, hab]
        | false =>
          simp only [List.filter_cons, hpb, ih, hpa]
          simp
      | false =>
        cases hpb : p b with
        | true =>
          simp only [List.filter_cons, hpb, ih, hpa]
          simp
        | false =>
          simp only [List.filter_cons, hpb, ih, hpa]
          simp

/-- Filtering commutes with the stable sort (generalized over the
accumulator). -/
theorem filter_sortK_aux (key : String → String) (p : String → Bool) :
    ∀ (l acc : List String), acc.Pairwise (keyLe key) →
      (List.foldl (fun acc a => insK key a acc) acc l).filter p
        = List.foldl (fun acc a => insK key a acc) (acc.filter p) (l.filter p)
  | [], _, _ => rfl
  | a :: l, acc, h => by
    simp only [List.foldl_cons, List.filter_cons]
    rw [filter_sortK_aux key p l (insK key a acc) (insK_sorted key a acc h)]
    cases hpa : p a with
    | true =>
      rw [filter_insK key p a acc h, if_pos hpa]
      simp
    | false =>
      rw [filter_insK key p a acc h, if_neg (by simp [hpa])]
      simp

/-- Sorting all names and then filtering selects the same list as filtering
first and then sorting: the stable sort makes the two orders of operation
agree. -/
theorem filter_sortK (key : String → String) (p : String → Bool) (l : List String) :
    (sortK key l).filter p = sortK key (l.filter p) := by
  simpa [sortK] using filter_sortK_aux key p l [] List.Pairwise.nil

/-- Claim C2, amended: the Candidate File Selector returns the plain files
accepted by the readme pattern (name starts with `readme`
case-insensitively and contains no newline except possibly a trailing
one), stably sorted ascending by lowercased name with ties in listing
order, then `.repostatus.org` if present among the plain files, then
`repostatus.org` if present, and the empty list when none qualify.  The
selection test is the faithful `readme_re` semantics rather than the bare
prefix test of the claim. -/
theorem claim_C2 (entries : List RootEntry) :
    find_candidate_files entries = candidate_files_spec entries := by
  simp only [find_candidate_files, candidate_files_spec, plainFiles, sortByLower]
  rw [filter_sortK]

/-- Claim C2, counterexample to the literal claim: the plain file
`README\nx` starts with `readme` case-insensitively, so the claim selects
it, but `readme_re` (pattern `^readme.*$`, where `.` does not cross a
newline) rejects it, so the code returns no candidates for this listing. -/
theorem claim_C2_counterexample :
    find_candidate_files [⟨"README\nx", "file"⟩] = []
      ∧ candidate_files_claim [⟨"README\nx", "file"⟩] = ["README\nx"] := by
  constructor
  · decide
  · decide

/-- Claim C3, amended: for the root listing `README.md`, `readme`,
`Readme.txt` (all plain files), the selector returns
`readme`, `README.md`, `Readme.txt` — in lowercase, `readme` is below
`readme.md`, which is below `readme.txt`. -/
theorem claim_C3 :
    find_candidate_files [⟨"README.md", "file"⟩, ⟨"readme", "file"⟩, ⟨"Readme.txt", "file"⟩]
      = ["readme", "README.md", "Readme.txt"] := by
  decide

/-- Claim C3, counterexample: the order stated by the claim,
`readme`, `Readme.txt`, `README.md`, is not what the selector returns,
since sorting by lowercased name places `readme.md` before `readme.txt`. -/
theorem claim_C3_counterexample :
    find_candidate_files [⟨"README.md", "file"⟩, ⟨"readme", "file"⟩, ⟨"Readme.txt", "file"⟩]
      ≠ ["readme", "Readme.txt", "README.md"] := by
  decide

/-!
Status-resolver lemmas.
-/

/-- The logged resolver computes the same result as the plain resolver. -/
theorem find_status_logged_fst (repoName : String) (g : String → FileContent) :
    ∀ fs : List String, (find_status_logged repoName g fs).1 = find_status_for_files g fs
  | [] => rfl
  | f :: fs => by
    simp only [find_status_logged, find_status_for_files]
    cases urlSearchStr (fileText g f) with
    | some p => rfl
    | none => simpa using find_status_logged_fst repoName g fs

/-- Claim C6: a candidate file whose reported content encoding is not
`base64` contributes an error log entry, is treated as non-matching (its
search text is empty), and the resolver continues with the remaining
candidates; the overall scan is not terminated (the result on the
remaining candidates is returned) and the model is total, so no failure
escapes. -/
theorem claim_C6 (repoName : String) (g : String → FileContent) (f : String)
    (fs : List String) (h : (g f).encoding ≠ "base64") :
    find_status_logged repoName g (f :: fs)
      = ((find_status_logged repoName g fs).1,
         encodingErr repoName f (g f).encoding :: (find_status_logged repoName g fs).2) := by
  have hb : ((g f).encoding == "base64") = false := by
    simpa using h
  have h0 : urlSearchStr "" = none := rfl
  simp [find_status_logged, fileText, hb, h0]

/-- Claim C6 witness at a concrete non-base64 file. -/
theorem claim_C6_witness :
    ((fun _ => (⟨"utf-8", "zz"⟩ : FileContent)) ("f")).encoding ≠ "base64"
      ∧ find_status_logged ("r") (fun _ => (⟨"utf-8", "zz"⟩ : FileContent)) ["f"]
        = ((find_status_logged ("r") (fun _ => (⟨"utf-8", "zz"⟩ : FileContent)) []).1,
           encodingErr ("r") ("f") ((fun _ => (⟨"utf-8", "zz"⟩ : FileContent)) ("f")).encoding
             :: (find_status_logged ("r") (fun _ => (⟨"utf-8", "zz"⟩ : FileContent)) []).2) :=
  ⟨by decide, claim_C6 ("r") (fun _ => (⟨"utf-8", "zz"⟩ : FileContent)) ("f") [] (by decide)⟩

/-- The leftmost-position characterization of the regex search: a search
result is the match produced at the first position where a match exists. -/
theorem urlSearch_iff : ∀ (s : List Char) (p : List Char × List Char),
    urlSearch s = some p ↔
      ∃ n, matchAt (s.drop n) = some p ∧ ∀ m, m < n → matchAt (s.drop m) = none
  | [], p => by
    have hm : matchAt ([] : List Char) = none := rfl
    simp only [urlSearch]
    constructor
    · intro h
      exact absurd h (by simp)
    · rintro ⟨n, hn, _⟩
      rw [List.drop_nil] at hn
      rw [hm] at hn
      exact absurd hn (by simp)
  | c :: cs, p => by
    cases hm : matchAt (c :: cs) with
    | some q =>
      simp only [urlSearch, hm]
      constructor
      · intro h
        refine ⟨0, ?_, ?_⟩
        · simpa using hm.trans (by simpa using h)
        · intro m hmlt
          omega
      · rintro ⟨n, hn, hall⟩
        cases n with
        | zero =>
          simp only [List.drop_zero] at hn
          rw [hm] at hn
          simpa using hn
        | succ n1 =>
          have := hall 0 (Nat.succ_pos n1)
          simp only [List.drop_zero] at this
          rw [hm] at this
          exact absurd this (by simp)
    | none =>
      simp only [urlSearch, hm]
      rw [urlSearch_iff cs p]
      constructor
      · rintro ⟨n, hn, hall⟩
        refine ⟨n + 1, by simpa using hn, ?_⟩
        intro m hmlt
        cases m with
        | zero => simpa using hm
        | succ m1 =>
          have := hall m1 (by omega)
          simpa using this
      · rintro ⟨n, hn, hall⟩
        cases n with
        | zero =>
          simp only [List.drop_zero] at hn
          rw [hm] at hn
          exact absurd hn (by simp)
        | succ n1 =>
          refine ⟨n1, by simpa using hn, ?_⟩
          intro m hmlt
          have := hall (m + 1) (by omega)
          simpa using this

/-- The resolver returns `some` exactly for the earliest matching
candidate: the candidate list splits into a prefix of non-matching files,
the first matching file, and an unexamined tail. -/
theorem find_status_some_iff (g : String → FileContent) :
    ∀ (fs : List String) (p : String × String),
      find_status_for_files g fs = some p ↔
        ∃ l1 f l2, fs = l1 ++ f :: l2
          ∧ (∀ f2 ∈ l1, urlSearchStr (fileText g f2) = none)
          ∧ urlSearchStr (fileText g f) = some p
  | [], p => by
    simp only [find_status_for_files]
    constructor
    · intro h
      exact absurd h (by simp)
    · rintro ⟨l1, f, l2, habs, -, -⟩
      exact absurd habs.symm (List.append_ne_nil_of_right_ne_nil l1 (by simp))
  | f0 :: fs, p => by
    cases hf : urlSearchStr (fileText g f0) with
    | some q =>
      simp only [find_status_for_files, hf]
      constructor
      · intro h
        refine ⟨[], f0, fs, by simp, by simp, ?_⟩
        rw [hf]
        simpa using h
      · rintro ⟨l1, f, l2, heq, hnone, hsome⟩
        cases l1 with
        | nil =>
          simp only [List.nil_append, List.cons.injEq] at heq
          rw [heq.1] at hf
          rw [hf] at hsome
          exact hsome
        | cons a l1x =>
          simp only [List.cons_append, List.cons.injEq] at heq
          have := hnone a (by simp)
          rw [heq.1] at hf
          rw [this] at hf
          exact absurd hf (by simp)
    | none =>
      simp only [find_status_for_files, hf]
      rw [find_status_some_iff g fs p]
      constructor
      · rintro ⟨l1, f, l2, heq, hnone, hsome⟩
        refine ⟨f0 :: l1, f, l2, by simp [heq], ?_, hsome⟩
        intro f2 hf2
        rcases List.mem_cons.mp hf2 with h1 | h2
        · rw [h1]
          exact hf
        · exact hnone f2 h2
      · rintro ⟨l1, f, l2, heq, hnone, hsome⟩
        cases l1 with
        | nil =>
          simp only [List.nil_append, List.cons.injEq] at heq
          rw [heq.1] at hf
          rw [hf] at hsome
          exact absurd hsome (by simp)
        | cons a l1x =>
          simp only [List.cons_append, List.cons.injEq] at heq
          exact ⟨l1x, f, l2, heq.2, fun f2 h2 => hnone f2 (by simp [h2]), hsome⟩

/-- The resolver returns `none` exactly when no candidate matches. -/
theorem find_status_none_iff (g : String → FileContent) :
    ∀ fs : List String,
      find_status_for_files g fs = none ↔ ∀ f ∈ fs, urlSearchStr (fileText g f) = none
  | [] => by simp [find_status_for_files]
  | f0 :: fs => by
    cases hf : urlSearchStr (fileText g f0) with
    | some q =>
      simp only [find_status_for_files, hf]
      constructor
      · intro h
        exact absurd h (by simp)
      · intro h
        have := h f0 (by simp)
        rw [hf] at this
        exact absurd this (by simp)
    | none =>
      simp only [find_status_for_files, hf]
      rw [find_status_none_iff g fs]
      constructor
      · intro h f2 hf2
        rcases List.mem_cons.mp hf2 with h1 | h2
        · rw [h1]
          exact hf
        · exact h f2 h2
      · intro h f2 hf2
        exact h f2 (by simp [hf2])

/-- Claim C4: the Status Resolver returns the pair extracted from the
earliest candidate file whose search text matches, never a later one; it
returns `none` exactly when no candidate matches; and within a text the
search yields the match at the leftmost matching position. -/
theorem claim_C4 (g : String → FileContent) (fs : List String) :
    (∀ p, find_status_for_files g fs = some p ↔
        ∃ l1 f l2, fs = l1 ++ f :: l2
          ∧ (∀ f2 ∈ l1, urlSearchStr (fileText g f2) = none)
          ∧ urlSearchStr (fileText g f) = some p)
    ∧ (find_status_for_files g fs = none ↔ ∀ f ∈ fs, urlSearchStr (fileText g f) = none)
    ∧ (∀ (s : List Char) (q : List Char × List Char),
        urlSearch s = some q ↔
          ∃ n, matchAt (s.drop n) = some q ∧ ∀ m, m < n → matchAt (s.drop m) = none) :=
  ⟨fun p => find_status_some_iff g fs p, find_status_none_iff g fs,
   fun s q => urlSearch_iff s q⟩

/-!
Properties of the regex capture groups (for claim C5): whenever the search
succeeds, both groups are non-empty and newline-free.
-/

/-- A successful strip of a non-empty literal needs non-empty input. -/
theorem stripCI_ne_nil (x : Char) (xs s r : List Char) (h : stripCI (x :: xs) s = some r) :
    s ≠ [] := by
  cases s with
  | nil => simp [stripCI] at h
  | cons c cs => simp

/-- The second capture group is non-empty and newline-free. -/
theorem g2try_props (u : List Char) :
    ∀ (k : Nat) (v : List Char), g2try u k = some v → v ≠ [] ∧ v.all nnl = true
  | 0, v, h => by simp [g2try] at h
  | k + 1, v, h => by
    by_cases hall : (u.take (k + 1)).all nnl = true
    · cases hs : stripCI svgLit (u.drop (k + 1)) with
      | some r =>
        simp only [g2try, hall, if_true, hs] at h
        have hv : u.take (k + 1) = v := by simpa using h
        subst hv
        refine ⟨?_, hall⟩
        have hd : u.drop (k + 1) ≠ [] := stripCI_ne_nil '.' (['s', 'v', 'g']) _ r hs
        have hu : u ≠ [] := by
          intro he
          subst he
          simp at hd
        simp [List.take_eq_nil_iff, hu]
      | none =>
        simp only [g2try, hall, if_true, hs] at h
        exact g2try_props u k v h
    · simp only [g2try, if_neg hall] at h
      exact g2try_props u k v h

/-- Both capture groups are non-empty and newline-free. -/
theorem g1try_props (t : List Char) :
    ∀ (j : Nat) (v1 v2 : List Char), g1try t j = some (v1, v2) →
      v1 ≠ [] ∧ v1.all nnl = true ∧ v2 ≠ [] ∧ v2.all nnl = true
  | 0, _, _, h => by simp [g1try] at h
  | j + 1, v1, v2, h => by
    by_cases hall : (t.take (j + 1)).all nnl = true
    · cases hd : t.drop (j + 1) with
      | nil =>
        simp only [g1try, hall, if_true, hd] at h
        exact g1try_props t j v1 v2 h
      | cons c rest =>
        by_cases hc : c = '/'
        · subst hc
          cases hg : g2full rest with
          | some w =>
            simp only [g1try, hall, if_true, hd, if_pos rfl, hg] at h
            have hp : t.take (j + 1) = v1 ∧ w = v2 := by simpa using h
            obtain ⟨h1, h2⟩ := hp
            rw [← h1, ← h2]
            have hw := g2try_props rest rest.length w hg
            refine ⟨?_, hall, hw.1, hw.2⟩
            have ht : t ≠ [] := by
              intro he
              subst he
              simp at hd
            simp [List.take_eq_nil_iff, ht]
          | none =>
            simp only [g1try, hall, if_true, hd, if_pos rfl, hg] at h
            exact g1try_props t j v1 v2 h
        · simp only [g1try, hall, if_true, hd, if_neg hc] at h
          exact g1try_props t j v1 v2 h
    · simp only [g1try, if_neg hall] at h
      exact g1try_props t j v1 v2 h

/-- Group properties propagate through a `.*` placement attempt. -/
theorem dsAt_props (s : List Char) (i : Nat) (v1 v2 : List Char)
    (h : dsAt s i = some (v1, v2)) :
    v1 ≠ [] ∧ v1.all nnl = true ∧ v2 ≠ [] ∧ v2.all nnl = true := by
  simp only [dsAt] at h
  split at h
  · cases hs : stripCI badgesLit (s.drop i) with
    | some t =>
      simp only [hs] at h
      exact g1try_props t t.length v1 v2 h
    | none =>
      simp only [hs] at h
      exact absurd h (by simp)
  · exact absurd h (by simp)

/-- Group properties propagate through the greedy `.*` scan. -/
theorem dsTry_props (s : List Char) :
    ∀ (n : Nat) (v1 v2 : List Char), dsTry s n = some (v1, v2) →
      v1 ≠ [] ∧ v1.all nnl = true ∧ v2 ≠ [] ∧ v2.all nnl = true
  | 0, v1, v2, h => dsAt_props s 0 v1 v2 (by simpa [dsTry] using h)
  | n + 1, v1, v2, h => by
    simp only [dsTry] at h
    cases hd : dsAt s (n + 1) with
    | some p =>
      simp only [hd] at h
      obtain ⟨q1, q2⟩ := p
      have hp : q1 = v1 ∧ q2 = v2 := by simpa using h
      obtain ⟨h1, h2⟩ := hp
      rw [← h1, ← h2]
      exact dsAt_props s (n + 1) q1 q2 hd
    | none =>
      simp only [hd] at h
      exact dsTry_props s n v1 v2 h

/-- Group properties propagate through the anchored match. -/
theorem matchAt_props (s : List Char) (v1 v2 : List Char) (h : matchAt s = some (v1, v2)) :
    v1 ≠ [] ∧ v1.all nnl = true ∧ v2 ≠ [] ∧ v2.all nnl = true := by
  simp only [matchAt] at h
  cases h1 : stripCI httpsLit s with
  | some r =>
    simp only [h1] at h
    exact dsTry_props r r.length v1 v2 h
  | none =>
    simp only [h1] at h
    cases h2 : stripCI httpLit s with
    | some r =>
      simp only [h2] at h
      exact dsTry_props r r.length v1 v2 h
    | none =>
      simp only [h2] at h
      exact absurd h (by simp)

/-- Group properties propagate through the left-to-right search. -/
theorem urlSearch_props : ∀ (s : List Char) (v1 v2 : List Char),
    urlSearch s = some (v1, v2) →
      v1 ≠ [] ∧ v1.all nnl = true ∧ v2 ≠ [] ∧ v2.all nnl = true
  | [], _, _, h => by simp [urlSearch] at h
  | c :: cs, v1, v2, h => by
    simp only [urlSearch] at h
    cases hm : matchAt (c :: cs) with
    | some p =>
      simp only [hm] at h
      obtain ⟨q1, q2⟩ := p
      have hp : q1 = v1 ∧ q2 = v2 := by simpa using h
      obtain ⟨h1, h2⟩ := hp
      rw [← h1, ← h2]
      exact matchAt_props (c :: cs) q1 q2 hm
    | none =>
      simp only [hm] at h
      exact urlSearch_props cs v1 v2 h

/-- Claim C5, amended: whenever the Status Resolver's search finds a match,
the extracted version and status tokens are non-empty and newline-free.
They need not be single path segments: the greedy groups of `url_re` can
span a `/` (see the counterexample). -/
theorem claim_C5 (s v st : String) (h : urlSearchStr s = some (v, st)) :
    v.data ≠ [] ∧ st.data ≠ [] ∧ v.data.all nnl = true ∧ st.data.all nnl = true := by
  simp only [urlSearchStr] at h
  cases hu : urlSearch s.data with
  | some p =>
    simp only [hu] at h
    have hp : String.mk p.1 = v ∧ String.mk p.2 = st := by simpa using h
    obtain ⟨h1, h2⟩ := hp
    obtain ⟨q1, q2⟩ := p
    have hprops := urlSearch_props s.data q1 q2 hu
    rw [← h1, ← h2]
    exact ⟨hprops.1, hprops.2.2.1, hprops.2.1, hprops.2.2.2⟩
  | none =>
    simp only [hu] at h
    exact absurd h (by simp)

/-- Claim C5 witness at the specification's example text: the pair is
`("1.1.0", "active")` and satisfies the amended properties. -/
theorem claim_C5_witness :
    urlSearchStr ("https://www.repostatus.org/badges/1.1.0/active.svg")
        = some ("1.1.0", "active")
      ∧ ("1.1.0" : String).data ≠ [] ∧ ("active" : String).data ≠ []
      ∧ ("1.1.0" : String).data.all nnl = true ∧ ("active" : String).data.all nnl = true :=
  ⟨by decide,
   claim_C5 ("https://www.repostatus.org/badges/1.1.0/active.svg") ("1.1.0") ("active")
     (by decide)⟩

/-- Claim C5, counterexample: on a badge path with three segments the
greedy first group spans a `/`, so the version token is not a single path
segment. -/
theorem claim_C5_counterexample :
    urlSearchStr ("http://repostatus.org/badges/a/b/c.svg") = some ("a/b", "c")
      ∧ '/' ∈ ("a/b" : String).data := by
  constructor
  · decide
  · decide

/-!
Aggregation (`check`) lemmas.
-/

/-- Dict assignment with a fresh key appends. -/
theorem dictSet_not_mem (d : List (String × Option (String × String))) (k : String)
    (v : Option (String × String)) (h : k ∉ d.map Prod.fst) : dictSet d k v = d ++ [(k, v)] := by
  simp only [dictSet]
  rw [if_neg]
  intro hc
  exact h (by simpa using hc)

/-- The `check` loop, with a generalized accumulator: when the kept
repositories have pairwise distinct names not already present in the
accumulator, the loop appends exactly one entry per kept repository, in
order. -/
theorem check_aux (incl : Bool) :
    ∀ (repos : List Repo) (acc : List (String × Option (String × String))),
      ((repos.filter (keepRepo incl)).map Repo.name).Nodup →
      (∀ k ∈ acc.map Prod.fst, k ∉ (repos.filter (keepRepo incl)).map Repo.name) →
      List.foldl
        (fun res repo =>
          if repo.fork && !incl then res
          else
            let candidates := find_candidate_files repo.entries
            if candidates.isEmpty then res
            else dictSet res repo.name (find_status_for_files repo.getContents candidates))
        acc repos
        = acc ++ (repos.filter (keepRepo incl)).map
            (fun r => (r.name, find_status_for_files r.getContents (find_candidate_files r.entries)))
  | [], acc, _, _ => by simp
  | r :: repos, acc, hnd, hdisj => by
    simp only [List.foldl_cons]
    by_cases hfork : (r.fork && !incl) = true
    · have hkeep : keepRepo incl r = false := by simp [keepRepo, hfork]
      have hfil : (r :: repos).filter (keepRepo incl) = repos.filter (keepRepo incl) := by
        rw [List.filter_cons, if_neg (by simp [hkeep])]
      rw [hfil] at hnd hdisj
      rw [if_pos hfork, check_aux incl repos acc hnd hdisj, hfil]
    · by_cases hemp : (find_candidate_files r.entries).isEmpty = true
      · have hkeep : keepRepo incl r = false := by simp [keepRepo, hemp]
        have hfil : (r :: repos).filter (keepRepo incl) = repos.filter (keepRepo incl) := by
          rw [List.filter_cons, if_neg (by simp [hkeep])]
        rw [hfil] at hnd hdisj
        rw [if_neg hfork, if_pos hemp, check_aux incl repos acc hnd hdisj, hfil]
      · have hkeep : keepRepo incl r = true := by
          simp only [Bool.not_eq_true] at hfork hemp
          simp [keepRepo, hfork, hemp]
        have hfil : (r :: repos).filter (keepRepo incl)
            = r :: repos.filter (keepRepo incl) := by
          rw [List.filter_cons, if_pos (by simp [hkeep])]
        rw [hfil] at hnd hdisj
        rw [List.map_cons, List.nodup_cons] at hnd
        have hset : dictSet acc r.name
            (find_status_for_files r.getContents (find_candidate_files r.entries))
            = acc ++ [(r.name,
                find_status_for_files r.getContents (find_candidate_files r.entries))] :=
          dictSet_not_mem _ _ _ (fun hmem => hdisj r.name hmem (by simp))
        have hdisj2 : ∀ k ∈ (acc ++ [(r.name,
              find_status_for_files r.getContents (find_candidate_files r.entries))]).map Prod.fst,
            k ∉ (repos.filter (keepRepo incl)).map Repo.name := by
          intro k hk
          simp only [List.map_append, List.mem_append, List.map_cons, List.map_nil,
            List.mem_singleton] at hk
          rcases hk with hk1 | hk2
          · intro hmem
            exact hdisj k hk1 (by simp [hmem])
          · rw [hk2]
            exact hnd.1
        rw [if_neg hfork, if_neg hemp, hset, check_aux incl repos _ hnd.2 hdisj2, hfil]
        simp

/-- Claim C1, amended: with pairwise distinct repository names, the result
mapping of `check` contains exactly one entry for each non-excluded
repository whose candidate list is non-empty — its name mapped to the
resolver result, or to `none` (rendered `UNKNOWN`) when no candidate
matched — in listing order; a repository with an empty candidate list is
skipped and does not appear in the mapping at all. -/
theorem claim_C1 (repos : List Repo) (includeForks : Bool)
    (h : (repos.map Repo.name).Nodup) :
    check repos includeForks
      = (repos.filter (keepRepo includeForks)).map
          (fun r => (r.name, find_status_for_files r.getContents (find_candidate_files r.entries))) := by
  have h2 : ((repos.filter (keepRepo includeForks)).map Repo.name).Nodup :=
    ((List.filter_sublist repos).map Repo.name).nodup h
  simpa [check] using check_aux includeForks repos [] h2 (by simp)

/-- Claim C1 witness: a fork `A`, a repository `B` whose README carries a
badge, and a repository `C` with an empty root.  Only `B` appears; `C` is
absent (rather than mapped to UNKNOWN as the original claim stated). -/
theorem claim_C1_witness :
    (([⟨"A", true, [⟨"README.md", "file"⟩],
        fun _ => ⟨"base64", "https://www.repostatus.org/badges/1.1.0/active.svg"⟩⟩,
      ⟨"B", false, [⟨"README.md", "file"⟩],
        fun _ => ⟨"base64", "https://www.repostatus.org/badges/1.1.0/active.svg"⟩⟩,
      ⟨"C", false, [], fun _ => ⟨"base64", ""⟩⟩] : List Repo).map Repo.name).Nodup
      ∧ check
          [⟨"A", true, [⟨"README.md", "file"⟩],
            fun _ => ⟨"base64", "https://www.repostatus.org/badges/1.1.0/active.svg"⟩⟩,
           ⟨"B", false, [⟨"README.md", "file"⟩],
            fun _ => ⟨"base64", "https://www.repostatus.org/badges/1.1.0/active.svg"⟩⟩,
           ⟨"C", false, [], fun _ => ⟨"base64", ""⟩⟩] false
        = [("B", some ("1.1.0", "active"))] := by
  refine ⟨by decide, ?_⟩
  rw [claim_C1 _ false (by decide)]
  decide

/-- Claim C1, counterexample: a non-fork repository with no root files is
skipped by `check`, so it does not appear in the result mapping at all,
while the claim says it should appear mapped to UNKNOWN. -/
theorem claim_C1_counterexample :
    (⟨"C", false, [], fun _ => ⟨"base64", ""⟩⟩ : Repo).fork = false
      ∧ check [⟨"C", false, [], fun _ => ⟨"base64", ""⟩⟩] false = [] := by
  exact ⟨rfl, by decide⟩

/-- Claim C7: the run exits 1 exactly when the token is missing or when
`--fail-on-unknown` is set and some repository has unknown status; the exit
status is always 0 or 1; a missing token produces only the fatal error
event (no API call) with exit 1; and with a token present the trace starts
with the API check, the printed output and the summary log line, in that
order, before any exit. -/
theorem claim_C7 (tokenPresent : Bool) (repos : List Repo) (includeForks failOnUnknown : Bool) :
    ((mainRun tokenPresent repos includeForks failOnUnknown).2 = 1
        ↔ tokenPresent = false
          ∨ (failOnUnknown = true ∧ ∃ p ∈ check repos includeForks, p.2 = none))
      ∧ ((mainRun tokenPresent repos includeForks failOnUnknown).2 = 0
          ∨ (mainRun tokenPresent repos includeForks failOnUnknown).2 = 1)
      ∧ mainRun false repos includeForks failOnUnknown = ([MEvent.tokenError], 1)
      ∧ (∃ tail, (mainRun true repos includeForks failOnUnknown).1
          = MEvent.apiCheck :: MEvent.printOut :: MEvent.summaryLog :: tail) := by
  have hmap : ((((check repos includeForks).filter (fun p => p.2.isNone)).map Prod.fst) = [])
      ↔ ∀ p ∈ check repos includeForks, ¬ p.2 = none := by
    simp [List.filter_eq_nil_iff, Option.isNone_iff_eq_none]
  have hne : ((((check repos includeForks).filter (fun p => p.2.isNone)).map Prod.fst).isEmpty
        = false)
      ↔ ∃ p ∈ check repos includeForks, p.2 = none := by
    rw [Bool.eq_false_iff, ne_eq, List.isEmpty_iff, hmap]
    push_neg
    simp
  have h3 : mainRun false repos includeForks failOnUnknown = ([MEvent.tokenError], 1) := rfl
  have h4 : ∃ tail, (mainRun true repos includeForks failOnUnknown).1
      = MEvent.apiCheck :: MEvent.printOut :: MEvent.summaryLog :: tail := by
    simp only [mainRun, if_neg (show ¬(true = false) by simp)]
    split
    · exact ⟨_, rfl⟩
    · exact ⟨_, rfl⟩
  refine ⟨?_, ?_, h3, h4⟩
  · cases tokenPresent with
    | false => simp [mainRun]
    | true =>
      simp only [mainRun, if_neg (show ¬(true = false) by simp)]
      split
      · rename_i hcond
        rw [Bool.and_eq_true] at hcond
        constructor
        · intro _
          right
          exact ⟨hcond.2, hne.mp (by simpa using hcond.1)⟩
        · intro _
          rfl
      · rename_i hcond
        constructor
        · intro h0
          exact absurd h0 (by simp)
        · rintro (hf | ⟨hfail, hex2⟩)
          · exact absurd hf (by simp)
          · exfalso
            apply hcond
            rw [Bool.and_eq_true]
            exact ⟨by simpa using hne.mpr hex2, hfail⟩
  · cases tokenPresent with
    | false => simp [mainRun]
    | true =>
      simp only [mainRun, if_neg (show ¬(true = false) by simp)]
      split
      · right
        rfl
      · left
        rfl

/-!
Renderer lemmas.
-/

/-- The keys of the printable mapping are the keys of the results. -/
theorem buildOutput_keys (results : List (String × Option (String × String))) :
    (buildOutput results).map Prod.fst = results.map Prod.fst := by
  simp [buildOutput]

/-- Dict lookup returns the stored value when the keys are distinct. -/
theorem lookupD_mem : ∀ (d : List (String × String)) (k v dflt : String),
    (d.map Prod.fst).Nodup → (k, v) ∈ d → lookupD d k dflt = v
  | [], _, _, _, _, hm => absurd hm (by simp)
  | (k2, v2) :: rest, k, v, dflt, hnd, hm => by
    rw [List.map_cons, List.nodup_cons] at hnd
    rcases List.mem_cons.mp hm with h1 | h2
    · simp only [Prod.mk.injEq] at h1
      obtain ⟨h1a, h1b⟩ := h1
      subst h1a
      subst h1b
      simp [lookupD]
    · by_cases hk : (k2 == k) = true
      · exfalso
        have hkk : k2 = k := by simpa using hk
        apply hnd.1
        rw [hkk]
        exact List.mem_map.mpr ⟨(k, v), h2, rfl⟩
      · simp only [lookupD, if_neg hk]
        exact lookupD_mem rest k v dflt hnd.2 h2

/-- Dict lookup of an absent key returns the default. -/
theorem lookupD_not_mem : ∀ (d : List (String × String)) (k dflt : String),
    k ∉ d.map Prod.fst → lookupD d k dflt = dflt
  | [], _, _, _ => rfl
  | (k2, v2) :: rest, k, dflt, h => by
    simp only [List.map_cons, List.mem_cons] at h
    push_neg at h
    simp only [lookupD]
    rw [if_neg (by simpa using fun he => h.1 he.symm)]
    exact lookupD_not_mem rest k dflt h.2

/-- Dict lookup is invariant under permutation when the keys are
distinct. -/
theorem lookupD_perm (d1 d2 : List (String × String)) (h : d1.Perm d2)
    (hnd : (d1.map Prod.fst).Nodup) (k dflt : String) :
    lookupD d1 k dflt = lookupD d2 k dflt := by
  by_cases hk : k ∈ d1.map Prod.fst
  · obtain ⟨p, hp, hfst⟩ := List.mem_map.mp hk
    obtain ⟨k0, v0⟩ := p
    simp only at hfst
    subst hfst
    rw [lookupD_mem d1 k0 v0 dflt hnd hp,
      lookupD_mem d2 k0 v0 dflt (((h.map Prod.fst).nodup_iff).mp hnd) (h.mem_iff.mp hp)]
  · rw [lookupD_not_mem d1 k dflt hk,
      lookupD_not_mem d2 k dflt (fun hm => hk (((h.map Prod.fst).mem_iff).mpr hm))]

/-- The longest-name computation is invariant under permutation. -/
theorem maxlenOf_perm (r1 r2 : List (String × Option (String × String))) (h : r1.Perm r2) :
    maxlenOf r1 = maxlenOf r2 :=
  h.foldl_eq' (fun x _ y _ z => by simp only [gt_iff_lt]; split_ifs <;> omega) 0

/-- Antisymmetry instance for the non-strict string order. -/
instance : IsAntisymm String strLe :=
  ⟨fun a b h1 h2 => sLe_antisymm a b h2 h1⟩

/-- A sorted permutation of a string list is unique: the rendered key order
does not depend on the processing order. -/
theorem pySorted_eq_of_perm (l1 l2 : List String) (h : l1.Perm l2) :
    pySorted l1 = pySorted l2 := by
  apply List.eq_of_perm_of_sorted (r := strLe)
  · exact (sortK_perm _ l1).trans (h.trans (sortK_perm _ l2).symm)
  · exact sortK_sorted (fun s => s) l1
  · exact sortK_sorted (fun s => s) l2

/-- Mapping a row-building function over the sorted keys and looking each
key up produces exactly one row per stored pair. -/
theorem keysMap_eq (results : List (String × Option (String × String)))
    (h : (results.map Prod.fst).Nodup) (F : String → String → String) :
    (results.map Prod.fst).map (fun k => F k (lookupD (buildOutput results) k ""))
      = results.map (fun p => F p.1 (statusToken p.2)) := by
  rw [List.map_map]
  apply List.map_congr_left
  intro p hp
  simp only [Function.comp]
  congr 1
  apply lookupD_mem
  · rw [buildOutput_keys]
    exact h
  · exact List.mem_map_of_mem (fun p => (p.1, statusToken p.2)) hp

/-- Claim C8, amended: with distinct repository names, the text renderer
prints exactly one line per repository in the mapping; the line for a
repository is its name left-justified (padded on the right with spaces) to
one more than the longest name's width, then three spaces, then its status
token (`UNKNOWN` when the status is unresolved).  The original claim's
left-padding to exactly the longest width, with the token immediately
following, is not what the code prints. -/
theorem claim_C8 (results : List (String × Option (String × String)))
    (h : (results.map Prod.fst).Nodup) :
    (textLines results).Perm
      (results.map (fun p => pyFormatLeft p.1 (maxlenOf results + 1) ++ "   " ++ statusToken p.2)) := by
  unfold textLines
  rw [buildOutput_keys]
  refine ((sortK_perm (fun s => s) (results.map Prod.fst)).map _).trans ?_
  rw [keysMap_eq results h (fun k s => pyFormatLeft k (maxlenOf results + 1) ++ "   " ++ s)]

/-- Claim C8 witness at a concrete two-repository mapping. -/
theorem claim_C8_witness :
    (([("ab", none), ("abcde", some ("1.0", "active"))] :
        List (String × Option (String × String))).map Prod.fst).Nodup
      ∧ (textLines [("ab", none), ("abcde", some ("1.0", "active"))]).Perm
          (([("ab", none), ("abcde", some ("1.0", "active"))] :
              List (String × Option (String × String))).map
            (fun p => pyFormatLeft p.1
              (maxlenOf [("ab", none), ("abcde", some ("1.0", "active"))] + 1)
                ++ "   " ++ statusToken p.2)) :=
  ⟨by decide, claim_C8 [("ab", none), ("abcde", some ("1.0", "active"))] (by decide)⟩

/-- Claim C8, counterexample: on the mapping `ab ↦ UNKNOWN`,
`abcde ↦ active`, the code prints the name left-justified in a field of
width `maxlen + 1` followed by three spaces, not left-padded to the longest
width with the token immediately after. -/
theorem claim_C8_counterexample :
    textLines [("ab", none), ("abcde", some ("1.0", "active"))]
        = ["ab       UNKNOWN", "abcde    active"]
      ∧ claimTextLines [("ab", none), ("abcde", some ("1.0", "active"))]
          = ["   abUNKNOWN", "abcdeactive"]
      ∧ textLines [("ab", none), ("abcde", some ("1.0", "active"))]
          ≠ claimTextLines [("ab", none), ("abcde", some ("1.0", "active"))] := by
  refine ⟨by decide, by decide, by decide⟩

/-- Claim C10: with distinct repository names, both the text renderer and
the HTML table body emit their per-repository rows over the same key
sequence, which is an ascending (code-point lexicographic) sorted
permutation of the mapping's keys; and both outputs are invariant under
permuting the processing order of the mapping. -/
theorem claim_C10 (username : String) (results results2 : List (String × Option (String × String)))
    (hperm : results2.Perm results) (h : (results.map Prod.fst).Nodup) :
    (textLines results2 = textLines results
        ∧ htmlTbody username results2 = htmlTbody username results)
      ∧ ∃ ks : List String, ks.Perm (results.map Prod.fst) ∧ ks.Pairwise strLe
          ∧ textLines results = ks.map (fun k =>
              pyFormatLeft k (maxlenOf results + 1) ++ "   " ++ lookupD (buildOutput results) k "")
          ∧ htmlTbody username results = String.join (ks.map (fun k =>
              htmlRow username k (lookupD (buildOutput results) k ""))) := by
  have hk2 : (results2.map Prod.fst).Perm (results.map Prod.fst) := hperm.map _
  have hsorteq : pySorted (results2.map Prod.fst) = pySorted (results.map Prod.fst) :=
    pySorted_eq_of_perm _ _ hk2
  have hmax : maxlenOf results2 = maxlenOf results := maxlenOf_perm _ _ hperm
  have hb2 : (buildOutput results2).Perm (buildOutput results) := hperm.map _
  have hnd2 : ((buildOutput results2).map Prod.fst).Nodup := by
    rw [buildOutput_keys]
    exact (hk2.nodup_iff).mpr h
  have hlook : ∀ k, lookupD (buildOutput results2) k "" = lookupD (buildOutput results) k "" :=
    fun k => lookupD_perm _ _ hb2 hnd2 k ""
  constructor
  · constructor
    · unfold textLines
      rw [buildOutput_keys, buildOutput_keys, hsorteq, hmax]
      apply List.map_congr_left
      intro k _
      rw [hlook k]
    · unfold htmlTbody
      rw [buildOutput_keys, buildOutput_keys, hsorteq]
      congr 1
      apply List.map_congr_left
      intro k _
      rw [hlook k]
  · refine ⟨pySorted (results.map Prod.fst), sortK_perm _ _, sortK_sorted (fun s => s) _, ?_, ?_⟩
    · unfold textLines
      rw [buildOutput_keys]
    · unfold htmlTbody
      rw [buildOutput_keys]

/-- Claim C10 witness: the two-repository mapping processed in either
order renders identically, over the sorted key sequence. -/
theorem claim_C10_witness :
    (([("b", some ("1.0", "active")), ("a", none)] :
        List (String × Option (String × String))).Perm
      [("a", none), ("b", some ("1.0", "active"))])
      ∧ (([("a", none), ("b", some ("1.0", "active"))] :
          List (String × Option (String × String))).map Prod.fst).Nodup
      ∧ ((textLines [("b", some ("1.0", "active")), ("a", none)]
            = textLines [("a", none), ("b", some ("1.0", "active"))]
          ∧ htmlTbody ("user") [("b", some ("1.0", "active")), ("a", none)]
            = htmlTbody ("user") [("a", none), ("b", some ("1.0", "active"))])
        ∧ ∃ ks : List String, ks.Perm (([("a", none), ("b", some ("1.0", "active"))] :
              List (String × Option (String × String))).map Prod.fst)
            ∧ ks.Pairwise strLe
            ∧ textLines [("a", none), ("b", some ("1.0", "active"))] = ks.map (fun k =>
                pyFormatLeft k (maxlenOf [("a", none), ("b", some ("1.0", "active"))] + 1)
                  ++ "   " ++ lookupD (buildOutput [("a", none), ("b", some ("1.0", "active"))]) k "")
            ∧ htmlTbody ("user") [("a", none), ("b", some ("1.0", "active"))]
              = String.join (ks.map (fun k => htmlRow ("user") k
                  (lookupD (buildOutput [("a", none), ("b", some ("1.0", "active"))]) k "")))) :=
  ⟨by decide, by decide,
   claim_C10 ("user") [("a", none), ("b", some ("1.0", "active"))]
     [("b", some ("1.0", "active")), ("a", none)] (by decide) (by decide)⟩

/-!
JSON round-trip lemmas (claim C9).
-/

/-- Hex digits emitted by the escaper decode to their value. -/
theorem hexVal_hexDigitChar : ∀ d, d < 16 → hexVal (hexDigitChar d) = some d := by
  decide

/-- Reading back four emitted hex digits recovers the value. -/
theorem readHex4_hex4 (n : Nat) (h : n < 65536) (rest : List Char) :
    readHex4 (hex4 n ++ rest) = some (n, rest) := by
  have h1 : n / 4096 % 16 < 16 := Nat.mod_lt _ (by omega)
  have h2 : n / 256 % 16 < 16 := Nat.mod_lt _ (by omega)
  have h3 : n / 16 % 16 < 16 := Nat.mod_lt _ (by omega)
  have h4 : n % 16 < 16 := Nat.mod_lt _ (by omega)
  simp only [hex4, List.cons_append, List.nil_append, readHex4,
    hexVal_hexDigitChar _ h1, hexVal_hexDigitChar _ h2,
    hexVal_hexDigitChar _ h3, hexVal_hexDigitChar _ h4]
  have : 4096 * (n / 4096 % 16) + 256 * (n / 256 % 16) + 16 * (n / 16 % 16) + n % 16 = n := by
    omega
  rw [this]

/-- Unfolding of the string-body parser at a `\u` escape. -/
theorem psb_u (f : Nat) (acc rest2 : List Char) :
    parseStrBody (f + 1) acc ('\\' :: 'u' :: rest2)
      = (match readHex4 rest2 with
        | none => none
        | some (h, rest3) =>
          if 55296 ≤ h ∧ h ≤ 56319 then
            match rest3 with
            | '\\' :: 'u' :: rest4 =>
              (match readHex4 rest4 with
              | none => none
              | some (lo, rest5) =>
                if 56320 ≤ lo ∧ lo ≤ 57343 then
                  parseStrBody f
                    (Char.ofNat (65536 + (h - 55296) * 1024 + (lo - 56320)) :: acc) rest5
                else none)
            | _ => none
          else if 56320 ≤ h ∧ h ≤ 57343 then none
          else parseStrBody f (Char.ofNat h :: acc) rest3) := rfl

/-- One escaped character parses back to that character. -/
theorem parseStrBody_escape (c : Char) (fuel : Nat) (acc tail : List Char) :
    parseStrBody (fuel + 1) acc (escapeChar c ++ tail) = parseStrBody fuel (c :: acc) tail := by
  by_cases h1 : c = '"'
  · subst h1; rfl
  by_cases h2 : c = '\\'
  · subst h2; rfl
  by_cases h3 : c = '\x08'
  · subst h3; rfl
  by_cases h4 : c = '\t'
  · subst h4; rfl
  by_cases h5 : c = '\n'
  · subst h5; rfl
  by_cases h6 : c = '\x0c'
  · subst h6; rfl
  by_cases h7 : c = '\x0d'
  · subst h7; rfl
  by_cases hp : 32 ≤ c.toNat ∧ c.toNat ≤ 126
  · have hesc : escapeChar c = [c] := by
      simp only [escapeChar, if_neg h1, if_neg h2, if_neg h3, if_neg h4, if_neg h5,
        if_neg h6, if_neg h7, if_pos hp]
    rw [hesc, List.cons_append, List.nil_append]
    simp only [parseStrBody]
    rw [if_neg h1, if_neg h2, if_neg (by omega : ¬ c.toNat < 32)]
  by_cases hb : c.toNat < 65536
  · have hesc : escapeChar c = '\\' :: 'u' :: hex4 c.toNat := by
      simp only [escapeChar, if_neg h1, if_neg h2, if_neg h3, if_neg h4, if_neg h5,
        if_neg h6, if_neg h7, if_neg hp, if_pos hb]
    have hvalid : Nat.isValidChar c.toNat := c.valid
    have hs : c.toNat < 55296 ∨ 57344 ≤ c.toNat := by
      rcases hvalid with h | h
      · left; exact h
      · right; omega
    have hns1 : ¬(55296 ≤ c.toNat ∧ c.toNat ≤ 56319) := by
      rcases hs with h | h <;> omega
    have hns2 : ¬(56320 ≤ c.toNat ∧ c.toNat ≤ 57343) := by
      rcases hs with h | h <;> omega
    rw [hesc, List.cons_append, List.cons_append, psb_u]
    simp only [readHex4_hex4 c.toNat hb tail]
    rw [if_neg hns1, if_neg hns2, Char.ofNat_toNat]
  · have hesc : escapeChar c
        = ('\\' :: 'u' :: hex4 (55296 + (c.toNat - 65536) / 1024))
          ++ ('\\' :: 'u' :: hex4 (56320 + (c.toNat - 65536) % 1024)) := by
      simp only [escapeChar, if_neg h1, if_neg h2, if_neg h3, if_neg h4, if_neg h5,
        if_neg h6, if_neg h7, if_neg hp, if_neg hb]
    have hvalid : Nat.isValidChar c.toNat := c.valid
    have hmax : c.toNat < 1114112 := by
      rcases hvalid with h | h
      · omega
      · omega
    have hhi : 55296 + (c.toNat - 65536) / 1024 < 65536 := by omega
    have hlo : 56320 + (c.toNat - 65536) % 1024 < 65536 := by omega
    have hsur : 55296 ≤ 55296 + (c.toNat - 65536) / 1024
        ∧ 55296 + (c.toNat - 65536) / 1024 ≤ 56319 := by
      constructor
      · omega
      · omega
    have hlosur : 56320 ≤ 56320 + (c.toNat - 65536) % 1024
        ∧ 56320 + (c.toNat - 65536) % 1024 ≤ 57343 := by
      constructor
      · omega
      · omega
    rw [hesc]
    simp only [List.cons_append, List.append_assoc]
    rw [psb_u]
    simp only [readHex4_hex4 _ hhi, readHex4_hex4 _ hlo]
    rw [if_pos hsur]
    rw [if_pos hlosur]
    have harith : 65536 + (55296 + (c.toNat - 65536) / 1024 - 55296) * 1024
        + (56320 + (c.toNat - 65536) % 1024 - 56320) = c.toNat := by
      omega
    rw [harith, Char.ofNat_toNat]

/-- Unfolding of the string-body parser at the closing quote. -/
theorem psb_quote (f : Nat) (acc r : List Char) :
    parseStrBody (f + 1) acc ('"' :: r) = some (String.mk acc.reverse, r) := rfl

/-- An escaped string body followed by the closing quote parses back to
the original characters. -/
theorem parseStrBody_escList : ∀ (cs : List Char) (fuel : Nat) (acc rest : List Char),
    parseStrBody (cs.length + fuel + 1) acc (escList cs ++ '"' :: rest)
      = some (String.mk (acc.reverse ++ cs), rest)
  | [], fuel, acc, rest => by
    simp [escList, psb_quote]
  | c :: cs, fuel, acc, rest => by
    have hlen : (c :: cs).length + fuel + 1 = (cs.length + fuel + 1) + 1 := by
      simp [List.length_cons]
      omega
    have hsplit : escList (c :: cs) ++ '"' :: rest
        = escapeChar c ++ (escList cs ++ '"' :: rest) := by
      simp [escList]
    rw [hlen, hsplit, parseStrBody_escape, parseStrBody_escList cs fuel (c :: acc) rest]
    simp

/-- Every escape sequence is non-empty. -/
theorem escapeChar_length_pos (c : Char) : 1 ≤ (escapeChar c).length := by
  simp only [escapeChar]
  split_ifs <;> simp [hex4]

/-- The escaped body is at least as long as the original. -/
theorem escList_length_ge : ∀ cs : List Char, cs.length ≤ (escList cs).length
  | [] => by simp [escList]
  | c :: cs => by
    have h1 := escapeChar_length_pos c
    have h2 := escList_length_ge cs
    simp only [escList, List.map_cons, List.flatten_cons, List.length_append, List.length_cons]
    simp only [escList] at h2
    omega

/-- An emitted string literal parses back to the original string. -/
theorem parseString_escapeString (s : String) (rest : List Char) :
    parseString (escapeString s ++ rest) = some (s, rest) := by
  have hge : s.data.length ≤ (escList s.data).length := escList_length_ge s.data
  have hshape : escapeString s ++ rest = '"' :: (escList s.data ++ '"' :: rest) := by
    simp [escapeString]
  rw [hshape]
  show parseStrBody ((escList s.data ++ '"' :: rest).length + 1) [] (escList s.data ++ '"' :: rest)
      = some (s, rest)
  have hlen : (escList s.data ++ '"' :: rest).length + 1
      = s.data.length + ((escList s.data).length - s.data.length + rest.length + 1) + 1 := by
    simp only [List.length_append, List.length_cons]
    omega
  rw [hlen, parseStrBody_escList s.data _ [] rest]
  simp

/-- Unfolding of the member parser with positive fuel. -/
theorem parseMembers_succ (f : Nat) (l : List Char) :
    parseMembers (f + 1) l
      = (match parseString l with
        | none => none
        | some (k, r1) =>
          match skipWs r1 with
          | ':' :: r2 =>
            (match parseString (skipWs r2) with
            | none => none
            | some (v, r3) =>
              match skipWs r3 with
              | ',' :: r4 =>
                (match parseMembers f (skipWs r4) with
                | some (dd, r5) => some ((k, v) :: dd, r5)
                | none => none)
              | r4 => some ([(k, v)], r4))
          | _ => none) := rfl

/-- Whitespace skipping is inert on the emitted punctuation and
literals. -/
theorem skipWs_colon (l : List Char) : skipWs (':' :: l) = ':' :: l := rfl

/-- Whitespace skipping is inert on a comma. -/
theorem skipWs_comma (l : List Char) : skipWs (',' :: l) = ',' :: l := rfl

/-- Whitespace skipping is inert on a closing brace. -/
theorem skipWs_rbrace (l : List Char) : skipWs ('\x7d' :: l) = '\x7d' :: l := rfl

/-- Whitespace skipping consumes a single space. -/
theorem skipWs_space (l : List Char) : skipWs (' ' :: l) = skipWs l := rfl

/-- Whitespace skipping is inert before a string literal. -/
theorem skipWs_escapeString (s : String) (z : List Char) :
    skipWs (escapeString s ++ z) = escapeString s ++ z := by
  simp only [escapeString, List.cons_append]
  rfl

/-- Whitespace skipping is inert before an emitted member list. -/
theorem skipWs_members (k2 v2 : String) (d : List (String × String)) (z : List Char) :
    skipWs (membersChars ((k2, v2) :: d) ++ z) = membersChars ((k2, v2) :: d) ++ z := by
  cases d with
  | nil =>
    simp only [membersChars, List.map_cons, List.map_nil, joinComma, List.append_assoc]
    exact skipWs_escapeString k2 _
  | cons p d2 =>
    simp only [membersChars, List.map_cons, joinComma, List.append_assoc]
    exact skipWs_escapeString k2 _

/-- Each member contributes at least one character. -/
theorem membersChars_length_ge : ∀ d : List (String × String),
    d.length ≤ (membersChars d).length
  | [] => by simp [membersChars, joinComma]
  | (k, v) :: d => by
    cases d with
    | nil =>
      simp only [membersChars, List.map_cons, List.map_nil, joinComma, List.length_append,
        List.length_cons, List.length_nil]
      have : 2 ≤ (escapeString k).length := by
        simp [escapeString]
      omega
    | cons p d2 =>
      have ih := membersChars_length_ge (p :: d2)
      simp only [membersChars, List.map_cons, joinComma, List.length_append,
        List.length_cons] at ih ⊢
      have : 2 ≤ (escapeString k).length := by
        simp [escapeString]
      omega

/-- The emitted members of a non-empty dict parse back to the same pairs,
leaving the closing brace in the remainder. -/
theorem parseMembers_emit : ∀ (d : List (String × String)) (k v : String) (fuel : Nat)
    (r : List Char), d.length ≤ fuel →
    parseMembers (fuel + 1) (membersChars ((k, v) :: d) ++ '\x7d' :: r)
      = some ((k, v) :: d, '\x7d' :: r)
  | [], k, v, fuel, r, _ => by
    simp only [membersChars, List.map_cons, List.map_nil, joinComma, List.append_assoc,
      List.cons_append, parseMembers_succ, parseString_escapeString, skipWs_colon,
      skipWs_space, skipWs_escapeString, skipWs_rbrace]
    simp
  | (k2, v2) :: d, k, v, fuel, r, hle => by
    cases fuel with
    | zero =>
      simp only [List.length_cons] at hle
      omega
    | succ f =>
      have hle2 : d.length ≤ f := by
        simp only [List.length_cons] at hle
        omega
      have ih := parseMembers_emit d k2 v2 f r hle2
      have hsw := skipWs_members k2 v2 d ('\x7d' :: r)
      simp only [membersChars, List.map_cons, joinComma, List.append_assoc,
        List.cons_append] at ih hsw ⊢
      rw [parseMembers_succ]
      simp only [parseString_escapeString, skipWs_colon, skipWs_space, skipWs_escapeString,
        skipWs_comma]
      rw [hsw, ih]

/-- A non-empty emitted member list starts with the string literal of its
first key. -/
theorem membersChars_eq (k v : String) (d : List (String × String)) :
    ∃ W, membersChars ((k, v) :: d) = escapeString k ++ W := by
  cases d with
  | nil =>
    refine ⟨':' :: ' ' :: escapeString v, ?_⟩
    simp [membersChars, joinComma, List.append_assoc]
  | cons p d2 =>
    refine ⟨':' :: ' ' :: (escapeString v ++ ',' :: ' ' :: membersChars (p :: d2)), ?_⟩
    simp [membersChars, joinComma, List.append_assoc]

/-- Unfolding of the document parser on a non-empty emitted object. -/
theorem jsonLoads_nonempty (k : String) (z : List Char) :
    jsonLoads ('\x7b' :: (escapeString k ++ z))
      = (match parseMembers (('\x7b' :: (escapeString k ++ z)).length + 1)
            (escapeString k ++ z) with
        | some (dd, r3) =>
          (match skipWs r3 with
           | '\x7d' :: r4 => if skipWs r4 = [] then some dd else none
           | _ => none)
        | none => none) := by
  simp only [escapeString, List.cons_append]
  rfl

/-- Claim C9 core: serializing a flat string dict with the `json.dumps`
model and parsing it back with the `json.loads` model recovers exactly the
same key/value pairs. -/
theorem jsonLoads_jsonDumps : ∀ d : List (String × String), jsonLoads (jsonDumps d) = some d
  | [] => rfl
  | (k, v) :: d => by
    obtain ⟨W, hW⟩ := membersChars_eq k v d
    have hlen_ge : ((k, v) :: d).length ≤ (membersChars ((k, v) :: d)).length :=
      membersChars_length_ge _
    show jsonLoads ('\x7b' :: (membersChars ((k, v) :: d) ++ '\x7d' :: [])) = some ((k, v) :: d)
    rw [hW, List.append_assoc, jsonLoads_nonempty k (W ++ '\x7d' :: []),
      ← List.append_assoc, ← hW]
    have hf : ('\x7b' :: (membersChars ((k, v) :: d) ++ '\x7d' :: [])).length + 1
        = ((membersChars ((k, v) :: d)).length + 2) + 1 := by
      simp [List.length_cons, List.length_append]
    rw [hf, parseMembers_emit d k v ((membersChars ((k, v) :: d)).length + 2) []
      (by
        simp only [List.length_cons] at hlen_ge
        omega)]
    rfl

/-- Claim C9: rendering a result mapping with the json output format (a
flat object from repository name to status token, `UNKNOWN` for
unresolved) and parsing the emitted JSON back yields exactly the same
name-to-token associations. -/
theorem claim_C9 (results : List (String × Option (String × String))) :
    jsonLoads (jsonDumps (buildOutput results)) = some (buildOutput results) :=
  jsonLoads_jsonDumps (buildOutput results)

end RepoStatus
